import Mathlib

/-!
Verification of the todo-file engine in `src/todo.c` (MichaelCromer/todo).

The store is modelled as the list of its lines, each line being the raw
characters exactly as `fgets` delivers them, trailing newline included when
the file has one.  File I/O is modelled by passing store values in and out;
machine integers are modelled as `Int` (ranks and running counters) or as
`Nat` where the value is non-negative by construction.
-/

namespace Todo

/-- A line of the store: its raw characters as read by `fgets`, including
the trailing newline when present. -/
abbrev Line := List Char

/-- Embeds `line_is_todo` (todo.c:230-233): `strncmp(line, "[ ]", 3) == 0`.
On a NUL-free line, `strncmp` with bound 3 returns 0 exactly when the first
three characters exist and are the empty check box; a line shorter than 3
characters compares its terminating NUL against a non-NUL pattern character
and the test fails, which the 3-character `take` reproduces. -/
def line_is_todo (l : Line) : Bool := l.take 3 == ['[', ' ', ']']

/-- Embeds `line_is_done` (todo.c:237-240): `strncmp(line, "[X]", 3) == 0`. -/
def line_is_done (l : Line) : Bool := l.take 3 == ['[', 'X', ']']

/-- The three classes of store lines, spec section 4.1. -/
inductive LineClass
  | todoItem
  | doneItem
  | foreignLine
deriving DecidableEq

/-- Classification of a line.  The source keeps the two predicates
`line_is_todo` and `line_is_done` (todo.c:230-240) separate; since their
patterns are mutually exclusive they combine into this single total
classifier used throughout the spec. -/
def classify (l : Line) : LineClass :=
  if line_is_todo l then .todoItem else if line_is_done l then .doneItem else .foreignLine

/-- Spec-side notion, following the claim wording: a line begins with the
given character sequence. -/
def beginsWith (p l : Line) : Prop := ∃ t, l = p ++ t

/-- A foreign line is one that is neither a todo item nor a done item
(spec glossary). -/
def is_foreign (l : Line) : Bool := !(line_is_todo l) && !(line_is_done l)

lemma take_eq_iff_beginsWith (p l : Line) (hp : p.length = 3) :
    l.take 3 = p ↔ beginsWith p l := by
  constructor
  · intro h
    exact ⟨l.drop 3, by rw [← h, List.take_append_drop]⟩
  · rintro ⟨t, rfl⟩
    rw [← hp]
    exact List.take_left p t

lemma take3_short (l : Line) (h : l.length < 3) : l.take 3 = l :=
  List.take_of_length_le (by omega)

/-- C4: the classifier maps a line to the todo class exactly when it begins
with the three characters of an empty check box, to the done class exactly
when it begins with a capital-X check box, and to foreign otherwise; every
line shorter than three characters is foreign. -/
theorem classify_shape (l : Line) :
    (classify l = LineClass.todoItem ↔ beginsWith ['[', ' ', ']'] l) ∧
    (classify l = LineClass.doneItem ↔ beginsWith ['[', 'X', ']'] l) ∧
    (l.length < 3 → classify l = LineClass.foreignLine) := by
  have ht : line_is_todo l = true ↔ l.take 3 = ['[', ' ', ']'] := by
    simp [line_is_todo]
  have hd : line_is_done l = true ↔ l.take 3 = ['[', 'X', ']'] := by
    simp [line_is_done]
  refine ⟨?_, ?_, ?_⟩
  · rw [← take_eq_iff_beginsWith ['[', ' ', ']'] l (by decide), ← ht]
    unfold classify
    by_cases h1 : line_is_todo l
    · simp [h1]
    · by_cases h2 : line_is_done l <;> simp [h1, h2]
  · rw [← take_eq_iff_beginsWith ['[', 'X', ']'] l (by decide), ← hd]
    unfold classify
    by_cases h1 : line_is_todo l
    · have : line_is_done l = false := by
        rcases Bool.eq_false_or_eq_true (line_is_done l) with h2 | h2
        · exfalso
          have e1 := ht.mp h1
          have e2 := hd.mp h2
          rw [e1] at e2
          simp at e2
        · exact h2
      simp [h1, this]
    · by_cases h2 : line_is_done l <;> simp [h1, h2]
  · intro h
    have htk := take3_short l h
    have h1 : line_is_todo l = false := by
      rcases Bool.eq_false_or_eq_true (line_is_todo l) with h1 | h1
      · exfalso
        have e1 := ht.mp h1
        rw [htk] at e1
        rw [e1] at h
        simp at h
      · exact h1
    have h2 : line_is_done l = false := by
      rcases Bool.eq_false_or_eq_true (line_is_done l) with h2 | h2
      · exfalso
        have e2 := hd.mp h2
        rw [htk] at e2
        rw [e2] at h
        simp at h
      · exact h2
    simp [classify, h1, h2]

/-- Witness for `classify_shape`: the classifier at concrete lines, with the
short-line hypothesis discharged at the one-character line. -/
theorem classify_shape_witness :
    (['x'] : Line).length < 3 ∧ classify ['x'] = LineClass.foreignLine ∧
    classify ['[', ' ', ']', ' ', 'x'] = LineClass.todoItem :=
  ⟨by decide, (classify_shape ['x']).2.2 (by decide),
    (classify_shape ['[', ' ', ']', ' ', 'x']).1.mpr ⟨[' ', 'x'], rfl⟩⟩

/-- Accumulator loop of `atoi_pedantic` (todo.c:121-131): scan the
characters; any non-digit returns 0 immediately, a digit shifts the
accumulator by one decimal place. -/
def atoi_loop : List Char → Nat → Nat
  | [], r => r
  | c :: cs, r => if c.isDigit then atoi_loop cs (10 * r + (c.toNat - '0'.toNat)) else 0

/-- Embeds `atoi_pedantic` (todo.c:121-131).  The C `int` accumulator is
modelled as `Nat`: the accumulator only grows along the loop, so for any
token whose value fits in the integer type no overflow occurs and the two
agree. -/
def atoi_pedantic (s : List Char) : Nat := atoi_loop s 0

/-- Spec-side decimal value of a digit string: `Nat.ofDigits` over the
little-endian digit list. -/
def decimalValue (s : List Char) : Nat :=
  Nat.ofDigits 10 ((s.map (fun c => c.toNat - '0'.toNat)).reverse)

lemma atoi_loop_bad : ∀ (s : List Char) (r : Nat),
    (∃ c ∈ s, ¬ c.isDigit = true) → atoi_loop s r = 0 := by
  intro s
  induction s with
  | nil =>
    intro r h
    obtain ⟨c, hc, _⟩ := h
    simp at hc
  | cons c cs ih =>
    intro r h
    by_cases hc : c.isDigit
    · obtain ⟨c', hc', hd'⟩ := h
      rcases List.mem_cons.mp hc' with rfl | hmem
      · exact absurd hc hd'
      · simp [atoi_loop, hc, ih _ ⟨c', hmem, hd'⟩]
    · simp [atoi_loop, hc]

lemma atoi_loop_good : ∀ (s : List Char) (r : Nat),
    (∀ c ∈ s, c.isDigit = true) →
    atoi_loop s r = r * 10 ^ s.length + decimalValue s := by
  intro s
  induction s with
  | nil =>
    intro r _
    simp [atoi_loop, decimalValue, Nat.ofDigits]
  | cons c cs ih =>
    intro r h
    have hc : c.isDigit = true := h c (List.mem_cons_self c cs)
    have hrest : ∀ c' ∈ cs, c'.isDigit = true := fun c' hm => h c' (List.mem_cons_of_mem c hm)
    have hdec : decimalValue (c :: cs) =
        decimalValue cs + 10 ^ cs.length * (c.toNat - '0'.toNat) := by
      unfold decimalValue
      rw [List.map_cons, List.reverse_cons, Nat.ofDigits_append]
      simp [Nat.ofDigits_singleton]
    rw [atoi_loop, if_pos hc, ih _ hrest, hdec]
    simp [List.length_cons]
    ring

/-- C9: the pedantic numeric parser returns 0 on the empty token and on any
token containing a non-digit character anywhere, and returns the exact
decimal value of an all-digit token; in particular it does not coerce
a token with trailing garbage by leading-digit-prefix parsing. -/
theorem atoi_pedantic_exact (s : List Char) :
    atoi_pedantic [] = 0 ∧
    ((∃ c ∈ s, ¬ c.isDigit = true) → atoi_pedantic s = 0) ∧
    ((∀ c ∈ s, c.isDigit = true) → atoi_pedantic s = decimalValue s) ∧
    atoi_pedantic ['1', '2', '3', 'a', 'b', 'c'] = 0 := by
  refine ⟨rfl, fun h => atoi_loop_bad s 0 h, fun h => ?_, by decide⟩
  have := atoi_loop_good s 0 h
  simpa using this

/-- Witness for `atoi_pedantic_exact`: both classes of hypotheses
discharged at concrete tokens. -/
theorem atoi_pedantic_exact_witness :
    (∀ c ∈ ['4', '2'], c.isDigit = true) ∧
    atoi_pedantic ['4', '2'] = decimalValue ['4', '2'] ∧
    ((∃ c ∈ ['4', 'z'], ¬ c.isDigit = true) ∧ atoi_pedantic ['4', 'z'] = 0) :=
  ⟨by decide, (atoi_pedantic_exact ['4', '2']).2.2.1 (by decide),
    by decide, (atoi_pedantic_exact ['4', 'z']).2.1 (by decide)⟩

/-- Loop of `print_with_filter` (todo.c:243-256): the rank counter `i`
starts at 1; the loop runs while `i <= max_lines` and a line could be read;
a line passing the test is emitted with the current rank, which then
increments; other lines are skipped without advancing the rank. -/
def pwf_loop (t : Line → Bool) (max_lines : Int) : Int → List Line → List (Int × Line)
  | _, [] => []
  | i, l :: ls =>
    if i ≤ max_lines then
      if t l then (i, l) :: pwf_loop t max_lines (i + 1) ls
      else pwf_loop t max_lines i ls
    else []

/-- Embeds `print_with_filter` (todo.c:243-256), returning the emitted
(rank, line) pairs instead of printing them. -/
def print_with_filter (t : Line → Bool) (max_lines : Int) (store : List Line) :
    List (Int × Line) :=
  pwf_loop t max_lines 1 store

/-- Embeds `print_todo` (todo.c:259-262). -/
def print_todo (n : Int) (store : List Line) : List (Int × Line) :=
  print_with_filter line_is_todo n store

/-- Embeds `print_done` (todo.c:265-268). -/
def print_done (n : Int) (store : List Line) : List (Int × Line) :=
  print_with_filter line_is_done n store

/-- Spec-side: pair the lines of a list with consecutive ranks starting at
the given value. -/
def rankedFrom (i : Int) : List Line → List (Int × Line)
  | [] => []
  | l :: ls => (i, l) :: rankedFrom (i + 1) ls

lemma pwf_loop_eq (t : Line → Bool) (m : Int) :
    ∀ (store : List Line) (i : Int),
      pwf_loop t m i store = rankedFrom i ((store.filter t).take (m - i + 1).toNat) := by
  intro store
  induction store with
  | nil => intro i; simp [pwf_loop, rankedFrom]
  | cons l ls ih =>
    intro i
    by_cases hi : i ≤ m
    · by_cases ht : t l
      · have h1 : (m - i + 1).toNat = (m - (i + 1) + 1).toNat + 1 := by omega
        rw [pwf_loop, if_pos hi, if_pos ht, ih (i + 1)]
        simp only [List.filter_cons, ht, if_true, h1, List.take_succ_cons, rankedFrom]
      · rw [pwf_loop, if_pos hi, if_neg (by simp [ht]), ih i]
        simp only [List.filter_cons, ht]
        simp
    · have h0 : (m - i + 1).toNat = 0 := by omega
      rw [pwf_loop, if_neg hi]
      simp [h0, rankedFrom]

/-- C5: for every store and limit at least 1, the reader emits exactly the
lines of the requested class in file order, paired with consecutive ranks
starting at 1 within the filter, and stops after emitting `limit` items or
at end of file, whichever comes first. -/
theorem reader_ranks_consecutive (store : List Line) (limit : Int) (h : 1 ≤ limit) :
    print_todo limit store =
      rankedFrom 1 ((store.filter line_is_todo).take limit.toNat) ∧
    print_done limit store =
      rankedFrom 1 ((store.filter line_is_done).take limit.toNat) := by
  have e : limit - 1 + 1 = limit := by omega
  constructor
  · rw [print_todo, print_with_filter, pwf_loop_eq, e]
  · rw [print_done, print_with_filter, pwf_loop_eq, e]

/-- Witness for `reader_ranks_consecutive`, on the spec's rank-stability
example: items a (todo), b (done), c (todo), d (todo) with limit 10. -/
theorem reader_ranks_consecutive_witness :
    (1 : Int) ≤ 10 ∧
    (print_todo 10
        [['[', ' ', ']', ' ', 'a', '\n'], ['[', 'X', ']', ' ', 'b', '\n'],
         ['[', ' ', ']', ' ', 'c', '\n'], ['[', ' ', ']', ' ', 'd', '\n']] =
      rankedFrom 1
        (([['[', ' ', ']', ' ', 'a', '\n'], ['[', 'X', ']', ' ', 'b', '\n'],
           ['[', ' ', ']', ' ', 'c', '\n'],
           ['[', ' ', ']', ' ', 'd', '\n']].filter line_is_todo).take (10 : Int).toNat) ∧
     print_done 10
        [['[', ' ', ']', ' ', 'a', '\n'], ['[', 'X', ']', ' ', 'b', '\n'],
         ['[', ' ', ']', ' ', 'c', '\n'], ['[', ' ', ']', ' ', 'd', '\n']] =
      rankedFrom 1
        (([['[', ' ', ']', ' ', 'a', '\n'], ['[', 'X', ']', ' ', 'b', '\n'],
           ['[', ' ', ']', ' ', 'c', '\n'],
           ['[', ' ', ']', ' ', 'd', '\n']].filter line_is_done).take (10 : Int).toNat)) :=
  ⟨by decide, reader_ranks_consecutive _ 10 (by decide)⟩

/-- The line written by `add_item` for a given text: the todo prefix, the
text, and a newline. -/
def itemLine (text : List Char) : Line := ['[', ' ', ']', ' '] ++ text ++ ['\n']

/-- Embeds `add_item` (todo.c:417-425): opening the store in append mode
and writing the formatted entry places exactly one new line at the end. -/
def add_item (item : List Char) (store : List Line) : List Line :=
  store ++ [itemLine item]

/-- C8: appending a newline-free text to an N-line store yields an
(N+1)-line store whose first N lines are unchanged and whose last line is
exactly the formatted todo entry, which the classifier counts as todo. -/
theorem add_item_appends (store : List Line) (text : List Char) (h : '\n' ∉ text) :
    (add_item text store).length = store.length + 1 ∧
    (add_item text store).take store.length = store ∧
    (add_item text store).getLast? = some (['[', ' ', ']', ' '] ++ text ++ ['\n']) ∧
    classify (itemLine text) = LineClass.todoItem := by
  refine ⟨by simp [add_item], ?_, ?_, ?_⟩
  · rw [add_item]
    exact List.take_left store [itemLine text]
  · rw [add_item, itemLine]
    simp
  · simp [classify, line_is_todo, itemLine]

/-- Witness for `add_item_appends` at the spec's example text. -/
theorem add_item_appends_witness :
    '\n' ∉ ['b', 'u', 'y', ' ', 'm', 'i', 'l', 'k'] ∧
    ((add_item ['b', 'u', 'y', ' ', 'm', 'i', 'l', 'k']
          [['#', ' ', 'h', '\n'], ['[', 'X', ']', ' ', 'z', '\n']]).length =
        [['#', ' ', 'h', '\n'], ['[', 'X', ']', ' ', 'z', '\n']].length + 1 ∧
      (add_item ['b', 'u', 'y', ' ', 'm', 'i', 'l', 'k']
          [['#', ' ', 'h', '\n'], ['[', 'X', ']', ' ', 'z', '\n']]).take
          [['#', ' ', 'h', '\n'], ['[', 'X', ']', ' ', 'z', '\n']].length =
        [['#', ' ', 'h', '\n'], ['[', 'X', ']', ' ', 'z', '\n']] ∧
      (add_item ['b', 'u', 'y', ' ', 'm', 'i', 'l', 'k']
          [['#', ' ', 'h', '\n'], ['[', 'X', ']', ' ', 'z', '\n']]).getLast? =
        some (['[', ' ', ']', ' '] ++ ['b', 'u', 'y', ' ', 'm', 'i', 'l', 'k'] ++ ['\n']) ∧
      classify (itemLine ['b', 'u', 'y', ' ', 'm', 'i', 'l', 'k']) = LineClass.todoItem) :=
  ⟨by decide,
    add_item_appends [['#', ' ', 'h', '\n'], ['[', 'X', ']', ' ', 'z', '\n']]
      ['b', 'u', 'y', ' ', 'm', 'i', 'l', 'k'] (by decide)⟩

/-- Models the `fgets` chunking of a raw byte stream: characters accumulate
until a newline, which is kept at the end of its chunk; a final chunk
without newline is returned when the stream ends with characters pending,
and end-of-stream with nothing pending yields no further chunk. -/
def fgetsSplitAux : List Char → List Char → List (List Char)
  | [], acc => if acc.isEmpty then [] else [acc.reverse]
  | c :: cs, acc =>
    if c = '\n' then (acc.reverse ++ ['\n']) :: fgetsSplitAux cs []
    else fgetsSplitAux cs (c :: acc)

/-- The sequence of lines `fgets` yields on a raw input stream. -/
def fgetsSplit (input : List Char) : List (List Char) := fgetsSplitAux input []

/-- Embeds the newline strip of the stdin loop (todo.c:519-522): remove one
trailing newline if the line ends with one. -/
def stripTrailingNl (l : List Char) : List Char :=
  match l.getLast? with
  | some c => if c = '\n' then l.dropLast else l
  | none => l

/-- Embeds the stdin ingest loop of `main` (todo.c:516-525): for each line
`fgets` yields, strip a single trailing newline and call `add_item` — the
source performs no emptiness check before appending. -/
def stream_ingest (input : List Char) (store : List Line) : List Line :=
  (fgetsSplit input).foldl (fun st l => add_item (stripTrailingNl l) st) store

/-- Counterexample to C6: streaming the input x-newline-newline-y-newline
appends three items, not two — the blank middle line is stored as an item
with empty text rather than dropped. -/
theorem stream_ingest_keeps_blank_lines :
    stream_ingest ['x', '\n', '\n', 'y', '\n'] [] =
      [itemLine ['x'], itemLine [], itemLine ['y']] ∧
    (stream_ingest ['x', '\n', '\n', 'y', '\n'] []).length = 3 := by
  constructor
  · rfl
  · rfl

/-- C6 as amended: the stream-ingest path appends one item for every line
read, empty lines included — each appended line is the todo-formatted strip
of the corresponding input line. -/
theorem stream_ingest_one_item_per_line (input : List Char) (store : List Line) :
    stream_ingest input store =
      store ++ (fgetsSplit input).map (fun l => itemLine (stripTrailingNl l)) := by
  rw [stream_ingest]
  generalize fgetsSplit input = chunks
  induction chunks generalizing store with
  | nil => simp
  | cons c cs ih =>
    rw [List.foldl_cons, ih]
    simp [add_item]

/-- Shared read-pass of `mark_done` (todo.c:315-332) and `mark_todo`
(todo.c:375-392), which are character-for-character the same loop up to the
matching predicate and replacement mark.  The running count of matching
lines starts at 0 and is incremented on every matching line; when it
reaches `item_num` the line is copied, its mark byte at index 1 replaced,
and the line excluded from the retained list (`continue`); every other line
is retained in order.  A later capture would overwrite an earlier one
(plain assignment in the source), hence the `getD` preferring the tail's
capture; the strictly increasing counter makes a double capture impossible. -/
def scanMark (p : Line → Bool) (m : Char) (item_num : Int) :
    Int → List Line → Option Line × List Line
  | _, [] => (none, [])
  | c, l :: ls =>
    if p l then
      if c + 1 = item_num then
        let r := scanMark p m item_num (c + 1) ls
        (some (r.1.getD (l.set 1 m)), r.2)
      else
        let r := scanMark p m item_num (c + 1) ls
        (r.1, l :: r.2)
    else
      let r := scanMark p m item_num c ls
      (r.1, l :: r.2)

/-- Embeds `mark_done` (todo.c:300-354): scan for the `item_num`-th todo
line, flip its mark to X, then rewrite the store with the captured target
first (if any) followed by the retained lines. -/
def mark_done (item_num : Int) (store : List Line) : List Line :=
  let r := scanMark line_is_todo 'X' item_num 0 store
  (match r.1 with
   | some t => [t]
   | none => []) ++ r.2

/-- Embeds `mark_todo` (todo.c:360-413): scan for the `item_num`-th done
line, flip its mark to blank, then rewrite the store with the retained
lines first and the captured target (if any) last. -/
def mark_todo (item_num : Int) (store : List Line) : List Line :=
  let r := scanMark line_is_done ' ' item_num 0 store
  r.2 ++
    (match r.1 with
     | some t => [t]
     | none => [])

/-- Spec-side: a list with its j-th (0-based) line matching the predicate
removed and everything else kept in original order. -/
def eraseNthMatch (p : Line → Bool) : Nat → List Line → List Line
  | _, [] => []
  | j, l :: ls =>
    if p l then
      if j = 0 then ls else l :: eraseNthMatch p (j - 1) ls
    else l :: eraseNthMatch p j ls

/-- Spec-side: a list with its j-th (0-based) line matching the predicate
replaced in place by its image under `f`. -/
def mapNthMatch (p : Line → Bool) (f : Line → Line) : Nat → List Line → List Line
  | _, [] => []
  | j, l :: ls =>
    if p l then
      if j = 0 then f l :: ls else l :: mapNthMatch p f (j - 1) ls
    else l :: mapNthMatch p f j ls

lemma scanMark_not_found (p : Line → Bool) (m : Char) (n : Int) :
    ∀ (store : List Line) (c : Int),
      (n ≤ c ∨ c + ((store.filter p).length : Int) < n) →
      scanMark p m n c store = (none, store) := by
  intro store
  induction store with
  | nil => intro c _; rfl
  | cons l ls ih =>
    intro c h
    by_cases hp : p l
    · rw [show (l :: ls).filter p = l :: ls.filter p from by simp [List.filter_cons, hp],
        List.length_cons] at h
      push_cast at h
      have hne : ¬(c + 1 = n) := by omega
      have hrec := ih (c + 1) (by omega)
      simp [scanMark, hp, hne, hrec]
    · rw [show (l :: ls).filter p = ls.filter p from by simp [List.filter_cons, hp]] at h
      have hrec := ih c h
      simp [scanMark, hp, hrec]

lemma scanMark_found (p : Line → Bool) (m : Char) (n : Int) :
    ∀ (store : List Line) (c : Int) (j : Nat),
      j < (store.filter p).length → c + (j : Int) + 1 = n →
      scanMark p m n c store =
        (some (((store.filter p).getD j []).set 1 m), eraseNthMatch p j store) := by
  intro store
  induction store with
  | nil => intro c j hj _; simp at hj
  | cons l ls ih =>
    intro c j hj hn
    by_cases hp : p l
    · have hfc : (l :: ls).filter p = l :: ls.filter p := by simp [List.filter_cons, hp]
      rw [hfc] at hj ⊢
      by_cases hc : c + 1 = n
      · have hj0 : j = 0 := by omega
        subst hj0
        have hrec := scanMark_not_found p m n ls (c + 1) (by left; omega)
        rw [hc] at hrec
        simp [scanMark, hp, hc, hrec, eraseNthMatch]
      · obtain ⟨j', rfl⟩ : ∃ j', j = j' + 1 := ⟨j - 1, by omega⟩
        simp only [List.length_cons] at hj
        have hrec := ih (c + 1) j' (by omega) (by push_cast at hn ⊢; omega)
        simp [scanMark, hp, hc, hrec, eraseNthMatch]
    · have hfc : (l :: ls).filter p = ls.filter p := by simp [List.filter_cons, hp]
      rw [hfc] at hj ⊢
      have hrec := ih c j hj hn
      simp [scanMark, hp, hrec, eraseNthMatch]

/-- C1: for a rank matching a line of the target class, the toggle removes
the target line from its position, flips its mark byte, and rewrites the
store with the target first when marking done and last when marking todo,
every other line (matching or not) keeping its original relative order. -/
theorem toggle_relocates_target (store : List Line) (rank : Nat) (h1 : 1 ≤ rank) :
    (rank ≤ (store.filter line_is_todo).length →
      mark_done (rank : Int) store =
        ((store.filter line_is_todo).getD (rank - 1) []).set 1 'X'
          :: eraseNthMatch line_is_todo (rank - 1) store) ∧
    (rank ≤ (store.filter line_is_done).length →
      mark_todo (rank : Int) store =
        eraseNthMatch line_is_done (rank - 1) store
          ++ [((store.filter line_is_done).getD (rank - 1) []).set 1 ' ']) := by
  constructor
  · intro h2
    have hs := scanMark_found line_is_todo 'X' (rank : Int) store 0 (rank - 1)
      (by omega) (by omega)
    simp [mark_done, hs]
  · intro h2
    have hs := scanMark_found line_is_done ' ' (rank : Int) store 0 (rank - 1)
      (by omega) (by omega)
    simp [mark_todo, hs]

/-- Witness for `toggle_relocates_target` on a store holding one todo item
and one done item, rank 1 for both directions. -/
theorem toggle_relocates_target_witness :
    1 ≤ 1 ∧
    1 ≤ ([['[', ' ', ']', ' ', 'a', '\n'],
          ['[', 'X', ']', ' ', 'b', '\n']].filter line_is_todo).length ∧
    1 ≤ ([['[', ' ', ']', ' ', 'a', '\n'],
          ['[', 'X', ']', ' ', 'b', '\n']].filter line_is_done).length ∧
    mark_done ((1 : Nat) : Int) [['[', ' ', ']', ' ', 'a', '\n'], ['[', 'X', ']', ' ', 'b', '\n']] =
      (([['[', ' ', ']', ' ', 'a', '\n'],
         ['[', 'X', ']', ' ', 'b', '\n']].filter line_is_todo).getD (1 - 1) []).set 1 'X'
        :: eraseNthMatch line_is_todo (1 - 1)
             [['[', ' ', ']', ' ', 'a', '\n'], ['[', 'X', ']', ' ', 'b', '\n']] ∧
    mark_todo ((1 : Nat) : Int) [['[', ' ', ']', ' ', 'a', '\n'], ['[', 'X', ']', ' ', 'b', '\n']] =
      eraseNthMatch line_is_done (1 - 1)
          [['[', ' ', ']', ' ', 'a', '\n'], ['[', 'X', ']', ' ', 'b', '\n']]
        ++ [(([['[', ' ', ']', ' ', 'a', '\n'],
               ['[', 'X', ']', ' ', 'b', '\n']].filter line_is_done).getD (1 - 1) []).set 1 ' '] :=
  ⟨by decide, by decide, by decide,
    (toggle_relocates_target
      [['[', ' ', ']', ' ', 'a', '\n'], ['[', 'X', ']', ' ', 'b', '\n']] 1 (by decide)).1
      (by decide),
    (toggle_relocates_target
      [['[', ' ', ']', ' ', 'a', '\n'], ['[', 'X', ']', ' ', 'b', '\n']] 1 (by decide)).2
      (by decide)⟩

/-- C10: for a rank at most 0 the running counter, which takes values 1, 2,
… on matching lines, never equals the rank, so no target is captured and
both toggles write back exactly the original lines in their original
order. -/
theorem nonpositive_rank_noop (store : List Line) (rank : Int) (h : rank ≤ 0) :
    mark_done rank store = store ∧ mark_todo rank store = store := by
  have h1 := scanMark_not_found line_is_todo 'X' rank store 0 (by left; omega)
  have h2 := scanMark_not_found line_is_done ' ' rank store 0 (by left; omega)
  constructor
  · simp [mark_done, h1]
  · simp [mark_todo, h2]

/-- Witness for `nonpositive_rank_noop` at rank 0 on a mixed store. -/
theorem nonpositive_rank_noop_witness :
    (0 : Int) ≤ 0 ∧
    mark_done 0 [['[', ' ', ']', ' ', 'a', '\n'], ['#', '!', '\n']] =
      [['[', ' ', ']', ' ', 'a', '\n'], ['#', '!', '\n']] ∧
    mark_todo 0 [['[', ' ', ']', ' ', 'a', '\n'], ['#', '!', '\n']] =
      [['[', ' ', ']', ' ', 'a', '\n'], ['#', '!', '\n']] :=
  ⟨by decide,
    (nonpositive_rank_noop [['[', ' ', ']', ' ', 'a', '\n'], ['#', '!', '\n']] 0 (by decide)).1,
    (nonpositive_rank_noop [['[', ' ', ']', ' ', 'a', '\n'], ['#', '!', '\n']] 0 (by decide)).2⟩

/-- Observable outcome of a whole mark-done invocation (`todo -x N`) when
file I/O succeeds: the rewritten store, the messages printed to stderr, and
the process exit status.  On this path `mark_done` (todo.c:300-354) reaches
no `print_error` call — its only error prints guard the two `fopen`
failures — and `main` (todo.c:490-491, 545-547, 555) returns `EXIT_SUCCESS`
unconditionally, whether or not a target was captured. -/
def run_mark_done (n : Int) (store : List Line) : List Line × List (List Char) × Nat :=
  (mark_done n store, [], 0)

/-- Observable outcome of a whole mark-todo invocation (`todo -o N`) when
file I/O succeeds; as with `run_mark_done`, no error output and exit
status `EXIT_SUCCESS` on every path (todo.c:360-413, 493-494, 548-549,
555). -/
def run_mark_todo (n : Int) (store : List Line) : List Line × List (List Char) × Nat :=
  (mark_todo n store, [], 0)

/-- Counterexample to C2: on a store with two todo items, toggling rank 5
leaves the store unchanged byte-for-byte but signals nothing — stderr is
empty and the exit status is 0, indistinguishable from a successful toggle,
so no NotFoundError reaches the caller. -/
theorem out_of_range_is_silent :
    run_mark_done 5 [['[', ' ', ']', ' ', 'a', '\n'], ['[', ' ', ']', ' ', 'b', '\n']] =
      ([['[', ' ', ']', ' ', 'a', '\n'], ['[', ' ', ']', ' ', 'b', '\n']], [], 0) := by
  rfl

/-- C2 as amended: for a rank strictly greater than the number of lines of
the target class of the respective toggle direction, that toggle captures
no target and rewrites the store unchanged byte-for-byte, losing no
foreign lines; but no NotFoundError is signalled to the caller — the
invocation produces no error output and exits with status 0, exactly like
a successful one.  Each direction needs only its own class count to be
exceeded. -/
theorem out_of_range_rewrites_unchanged (store : List Line) (rank : Int) :
    (((store.filter line_is_todo).length : Int) < rank →
      run_mark_done rank store = (store, [], 0)) ∧
    (((store.filter line_is_done).length : Int) < rank →
      run_mark_todo rank store = (store, [], 0)) := by
  constructor
  · intro ht
    have h1 := scanMark_not_found line_is_todo 'X' rank store 0 (by right; omega)
    simp [run_mark_done, mark_done, h1]
  · intro hd
    have h2 := scanMark_not_found line_is_done ' ' rank store 0 (by right; omega)
    simp [run_mark_todo, mark_todo, h2]

/-- Witness for `out_of_range_rewrites_unchanged`: the mark-done direction
at rank 5 on a store with two todo items and a foreign line, and the
mark-todo direction at rank 2 on a store with three todo items and a
single done item — the latter exceeds only the done count, not the todo
count. -/
theorem out_of_range_rewrites_unchanged_witness :
    ((([['[', ' ', ']', ' ', 'a', '\n'], ['#', '!', '\n'],
        ['[', ' ', ']', ' ', 'b', '\n']].filter line_is_todo).length : Int) < 5 ∧
      run_mark_done 5 [['[', ' ', ']', ' ', 'a', '\n'], ['#', '!', '\n'],
          ['[', ' ', ']', ' ', 'b', '\n']] =
        ([['[', ' ', ']', ' ', 'a', '\n'], ['#', '!', '\n'],
          ['[', ' ', ']', ' ', 'b', '\n']], [], 0)) ∧
    ((([['[', ' ', ']', ' ', 'a', '\n'], ['[', ' ', ']', ' ', 'b', '\n'],
        ['[', ' ', ']', ' ', 'c', '\n'],
        ['[', 'X', ']', ' ', 'z', '\n']].filter line_is_done).length : Int) < 2 ∧
      run_mark_todo 2 [['[', ' ', ']', ' ', 'a', '\n'], ['[', ' ', ']', ' ', 'b', '\n'],
          ['[', ' ', ']', ' ', 'c', '\n'], ['[', 'X', ']', ' ', 'z', '\n']] =
        ([['[', ' ', ']', ' ', 'a', '\n'], ['[', ' ', ']', ' ', 'b', '\n'],
          ['[', ' ', ']', ' ', 'c', '\n'], ['[', 'X', ']', ' ', 'z', '\n']], [], 0)) :=
  ⟨⟨by decide,
      (out_of_range_rewrites_unchanged
        [['[', ' ', ']', ' ', 'a', '\n'], ['#', '!', '\n'], ['[', ' ', ']', ' ', 'b', '\n']]
        5).1 (by decide)⟩,
    ⟨by decide,
      (out_of_range_rewrites_unchanged
        [['[', ' ', ']', ' ', 'a', '\n'], ['[', ' ', ']', ' ', 'b', '\n'],
         ['[', ' ', ']', ' ', 'c', '\n'], ['[', 'X', ']', ' ', 'z', '\n']]
        2).2 (by decide)⟩⟩

lemma eraseNthMatch_length (p : Line → Bool) :
    ∀ (s : List Line) (j : Nat), j < (s.filter p).length →
      (eraseNthMatch p j s).length + 1 = s.length := by
  intro s
  induction s with
  | nil => intro j hj; simp at hj
  | cons l ls ih =>
    intro j hj
    by_cases hp : p l
    · rw [show (l :: ls).filter p = l :: ls.filter p from by simp [List.filter_cons, hp]] at hj
      rcases Nat.eq_zero_or_pos j with rfl | hj1
      · simp [eraseNthMatch, hp]
      · obtain ⟨j', rfl⟩ : ∃ j', j = j' + 1 := ⟨j - 1, by omega⟩
        simp only [List.length_cons] at hj
        have := ih j' (by omega)
        simp only [eraseNthMatch, hp, if_true, Nat.succ_ne_zero, if_false,
          Nat.add_sub_cancel, List.length_cons]
        omega
    · rw [show (l :: ls).filter p = ls.filter p from by simp [List.filter_cons, hp]] at hj
      have := ih j hj
      simp [eraseNthMatch, hp]
      omega

lemma eraseNthMatch_filter (p q : Line → Bool) (hpq : ∀ l, p l = true → q l = false) :
    ∀ (s : List Line) (j : Nat), j < (s.filter p).length →
      (eraseNthMatch p j s).filter q = s.filter q := by
  intro s
  induction s with
  | nil => intro j hj; simp at hj
  | cons l ls ih =>
    intro j hj
    by_cases hp : p l
    · rw [show (l :: ls).filter p = l :: ls.filter p from by simp [List.filter_cons, hp]] at hj
      rcases Nat.eq_zero_or_pos j with rfl | hj1
      · simp [eraseNthMatch, hp, List.filter_cons, hpq l hp]
      · obtain ⟨j', rfl⟩ : ∃ j', j = j' + 1 := ⟨j - 1, by omega⟩
        simp only [List.length_cons] at hj
        have := ih j' (by omega)
        simp [eraseNthMatch, hp, List.filter_cons, hpq l hp, this]
    · rw [show (l :: ls).filter p = ls.filter p from by simp [List.filter_cons, hp]] at hj
      have := ih j hj
      by_cases hq : q l <;> simp [eraseNthMatch, hp, List.filter_cons, hq, this]

lemma mapNthMatch_perm (p : Line → Bool) (f : Line → Line) :
    ∀ (s : List Line) (j : Nat), j < (s.filter p).length →
      List.Perm (mapNthMatch p f j s)
        (f ((s.filter p).getD j []) :: eraseNthMatch p j s) := by
  intro s
  induction s with
  | nil => intro j hj; simp at hj
  | cons l ls ih =>
    intro j hj
    by_cases hp : p l
    · have hfc : (l :: ls).filter p = l :: ls.filter p := by simp [List.filter_cons, hp]
      rw [hfc] at hj ⊢
      rcases Nat.eq_zero_or_pos j with rfl | hj1
      · simp [mapNthMatch, eraseNthMatch, hp]
      · obtain ⟨j', rfl⟩ : ∃ j', j = j' + 1 := ⟨j - 1, by omega⟩
        simp only [List.length_cons] at hj
        have hrec := ih j' (by omega)
        simp only [mapNthMatch, eraseNthMatch, hp, if_true, Nat.succ_ne_zero, if_false,
          Nat.add_sub_cancel, List.getD_cons_succ]
        exact (hrec.cons l).trans (List.Perm.swap _ l _)
    · have hfc : (l :: ls).filter p = ls.filter p := by simp [List.filter_cons, hp]
      rw [hfc] at hj ⊢
      have hrec := ih j hj
      simp only [mapNthMatch, eraseNthMatch, hp, if_false]
      exact (hrec.cons l).trans (List.Perm.swap _ l _)

/-- Shape of a line accepted by either item predicate: an opening bracket,
the mark character, a closing bracket, then the rest. -/
lemma item_line_shape {l : Line} {mk : Char} (h : l.take 3 = ['[', mk, ']']) :
    ∃ r, l = '[' :: mk :: ']' :: r := by
  rcases l with _ | ⟨a, _ | ⟨b, _ | ⟨c, r⟩⟩⟩
  · simp at h
  · simp at h
  · simp at h
  · have ht : (a :: b :: c :: r).take 3 = [a, b, c] := rfl
    rw [ht] at h
    simp only [List.cons.injEq] at h
    obtain ⟨rfl, rfl, rfl, -⟩ := h
    exact ⟨r, rfl⟩

/-- Spec-side: flipping the mark at index 1 changes exactly that one byte:
the old byte reads back as the old mark, the new byte as the new mark, the
length is unchanged, and every other index is unchanged. -/
def oneByteFlip (t : Line) (m0 m1 : Char) : Prop :=
  t.getD 1 m1 = m0 ∧ (t.set 1 m1).getD 1 m0 = m1 ∧
  (t.set 1 m1).length = t.length ∧
  ∀ i : Nat, i ≠ 1 → (t.set 1 m1).getD i ' ' = t.getD i ' '

lemma oneByteFlip_of_shape (mk mk' : Char) (r : List Char) :
    oneByteFlip ('[' :: mk :: ']' :: r) mk mk' := by
  refine ⟨rfl, rfl, rfl, ?_⟩
  intro i hi
  rcases i with _ | i
  · rfl
  · rcases i with _ | i
    · exact absurd rfl hi
    · rfl

lemma getD_mem_of_lt {s : List Line} {j : Nat} (h : j < s.length) : s.getD j [] ∈ s := by
  rw [List.getD_eq_getElem _ _ h]
  exact List.getElem_mem h

lemma mark_done_cases (store : List Line) (rank : Int) :
    mark_done rank store = store ∨
    ∃ j : Nat, j < (store.filter line_is_todo).length ∧ (j : Int) + 1 = rank ∧
      mark_done rank store =
        ((store.filter line_is_todo).getD j []).set 1 'X'
          :: eraseNthMatch line_is_todo j store := by
  by_cases h : ∃ j : Nat, j < (store.filter line_is_todo).length ∧ (j : Int) + 1 = rank
  · obtain ⟨j, hj, hr⟩ := h
    right
    refine ⟨j, hj, hr, ?_⟩
    have hs := scanMark_found line_is_todo 'X' rank store 0 j hj (by omega)
    simp [mark_done, hs]
  · left
    have hc : rank ≤ 0 ∨ 0 + ((store.filter line_is_todo).length : Int) < rank := by
      by_contra hcon
      push_neg at hcon
      exact h ⟨(rank - 1).toNat, by omega, by omega⟩
    have hs := scanMark_not_found line_is_todo 'X' rank store 0 hc
    simp [mark_done, hs]

lemma mark_todo_cases (store : List Line) (rank : Int) :
    mark_todo rank store = store ∨
    ∃ j : Nat, j < (store.filter line_is_done).length ∧ (j : Int) + 1 = rank ∧
      mark_todo rank store =
        eraseNthMatch line_is_done j store
          ++ [((store.filter line_is_done).getD j []).set 1 ' '] := by
  by_cases h : ∃ j : Nat, j < (store.filter line_is_done).length ∧ (j : Int) + 1 = rank
  · obtain ⟨j, hj, hr⟩ := h
    right
    refine ⟨j, hj, hr, ?_⟩
    have hs := scanMark_found line_is_done ' ' rank store 0 j hj (by omega)
    simp [mark_todo, hs]
  · left
    have hc : rank ≤ 0 ∨ 0 + ((store.filter line_is_done).length : Int) < rank := by
      by_contra hcon
      push_neg at hcon
      exact h ⟨(rank - 1).toNat, by omega, by omega⟩
    have hs := scanMark_not_found line_is_done ' ' rank store 0 hc
    simp [mark_todo, hs]

lemma todo_target_shape {store : List Line} {j : Nat}
    (hj : j < (store.filter line_is_todo).length) :
    ∃ r, (store.filter line_is_todo).getD j [] = '[' :: ' ' :: ']' :: r := by
  have hmem := getD_mem_of_lt hj
  have hp : line_is_todo ((store.filter line_is_todo).getD j []) = true :=
    List.of_mem_filter hmem
  have htake : ((store.filter line_is_todo).getD j []).take 3 = ['[', ' ', ']'] := by
    have := (by simp [line_is_todo] :
      line_is_todo ((store.filter line_is_todo).getD j []) = true ↔
        ((store.filter line_is_todo).getD j []).take 3 = ['[', ' ', ']'])
    exact this.mp hp
  exact item_line_shape htake

lemma done_target_shape {store : List Line} {j : Nat}
    (hj : j < (store.filter line_is_done).length) :
    ∃ r, (store.filter line_is_done).getD j [] = '[' :: 'X' :: ']' :: r := by
  have hmem := getD_mem_of_lt hj
  have hp : line_is_done ((store.filter line_is_done).getD j []) = true :=
    List.of_mem_filter hmem
  have htake : ((store.filter line_is_done).getD j []).take 3 = ['[', 'X', ']'] := by
    have := (by simp [line_is_done] :
      line_is_done ((store.filter line_is_done).getD j []) = true ↔
        ((store.filter line_is_done).getD j []).take 3 = ['[', 'X', ']'])
    exact this.mp hp
  exact item_line_shape htake

lemma todo_not_foreign : ∀ l : Line, line_is_todo l = true → is_foreign l = false := by
  intro l hl
  simp [is_foreign, hl]

lemma done_not_foreign : ∀ l : Line, line_is_done l = true → is_foreign l = false := by
  intro l hl
  simp [is_foreign, hl]

/-- C3: both mutators preserve the total line count for every rank (only
Ingest changes it), preserve the foreign lines — present, byte-identical,
in original relative order — for every rank, and on a matched rank the
result is a permutation of the original lines with the single target line's
mark flipped in place, a change of exactly one byte (index 1, the mark). -/
theorem mutator_permutes_one_byte (store : List Line) (rank : Int) (j : Nat) :
    (mark_done rank store).length = store.length ∧
    (mark_todo rank store).length = store.length ∧
    (mark_done rank store).filter is_foreign = store.filter is_foreign ∧
    (mark_todo rank store).filter is_foreign = store.filter is_foreign ∧
    ((j : Int) + 1 = rank → j < (store.filter line_is_todo).length →
      List.Perm (mark_done rank store)
        (mapNthMatch line_is_todo (fun l => l.set 1 'X') j store) ∧
      oneByteFlip ((store.filter line_is_todo).getD j []) ' ' 'X') ∧
    ((j : Int) + 1 = rank → j < (store.filter line_is_done).length →
      List.Perm (mark_todo rank store)
        (mapNthMatch line_is_done (fun l => l.set 1 ' ') j store) ∧
      oneByteFlip ((store.filter line_is_done).getD j []) 'X' ' ') := by
  refine ⟨?_, ?_, ?_, ?_, ?_, ?_⟩
  · rcases mark_done_cases store rank with he | ⟨j', hj', _, he⟩
    · rw [he]
    · rw [he]
      have := eraseNthMatch_length line_is_todo store j' hj'
      simp only [List.length_cons]
      omega
  · rcases mark_todo_cases store rank with he | ⟨j', hj', _, he⟩
    · rw [he]
    · rw [he]
      have := eraseNthMatch_length line_is_done store j' hj'
      simp only [List.length_append, List.length_cons, List.length_nil]
      omega
  · rcases mark_done_cases store rank with he | ⟨j', hj', _, he⟩
    · rw [he]
    · rw [he]
      obtain ⟨r, hr⟩ := todo_target_shape hj'
      have hforeign : is_foreign (((store.filter line_is_todo).getD j' []).set 1 'X') = false := by
        rw [hr]
        rfl
      rw [List.filter_cons, hforeign]
      simp only [Bool.false_eq_true, if_false]
      exact eraseNthMatch_filter line_is_todo is_foreign todo_not_foreign store j' hj'
  · rcases mark_todo_cases store rank with he | ⟨j', hj', _, he⟩
    · rw [he]
    · rw [he]
      obtain ⟨r, hr⟩ := done_target_shape hj'
      have hforeign : is_foreign (((store.filter line_is_done).getD j' []).set 1 ' ') = false := by
        rw [hr]
        rfl
      rw [List.filter_append, List.filter_cons, hforeign]
      simp only [Bool.false_eq_true, if_false, List.filter_nil, List.append_nil]
      exact eraseNthMatch_filter line_is_done is_foreign done_not_foreign store j' hj'
  · intro hr hj
    constructor
    · have hs := scanMark_found line_is_todo 'X' rank store 0 j hj (by omega)
      have he : mark_done rank store =
          ((store.filter line_is_todo).getD j []).set 1 'X'
            :: eraseNthMatch line_is_todo j store := by
        simp [mark_done, hs]
      rw [he]
      exact (mapNthMatch_perm line_is_todo (fun l => l.set 1 'X') store j hj).symm
    · obtain ⟨r, hr'⟩ := todo_target_shape hj
      rw [hr']
      exact oneByteFlip_of_shape ' ' 'X' r
  · intro hr hj
    constructor
    · have hs := scanMark_found line_is_done ' ' rank store 0 j hj (by omega)
      have he : mark_todo rank store =
          eraseNthMatch line_is_done j store
            ++ [((store.filter line_is_done).getD j []).set 1 ' '] := by
        simp [mark_todo, hs]
      rw [he]
      exact (List.perm_append_singleton _ _).trans
        (mapNthMatch_perm line_is_done (fun l => l.set 1 ' ') store j hj).symm
    · obtain ⟨r, hr'⟩ := done_target_shape hj
      rw [hr']
      exact oneByteFlip_of_shape 'X' ' ' r

/-- Witness for `mutator_permutes_one_byte` on a store with one todo item,
one foreign line and one done item, rank 1, match index 0. -/
theorem mutator_permutes_one_byte_witness :
    (((0 : Nat) : Int) + 1 = 1 ∧
      (0 : Nat) < ([['[', ' ', ']', ' ', 'a', '\n'], ['#', '!', '\n'],
        ['[', 'X', ']', ' ', 'b', '\n']].filter line_is_todo).length ∧
      (0 : Nat) < ([['[', ' ', ']', ' ', 'a', '\n'], ['#', '!', '\n'],
        ['[', 'X', ']', ' ', 'b', '\n']].filter line_is_done).length) ∧
    (List.Perm
        (mark_done 1 [['[', ' ', ']', ' ', 'a', '\n'], ['#', '!', '\n'],
          ['[', 'X', ']', ' ', 'b', '\n']])
        (mapNthMatch line_is_todo (fun l => l.set 1 'X') 0
          [['[', ' ', ']', ' ', 'a', '\n'], ['#', '!', '\n'],
           ['[', 'X', ']', ' ', 'b', '\n']]) ∧
      oneByteFlip (([['[', ' ', ']', ' ', 'a', '\n'], ['#', '!', '\n'],
          ['[', 'X', ']', ' ', 'b', '\n']].filter line_is_todo).getD 0 []) ' ' 'X') ∧
    (List.Perm
        (mark_todo 1 [['[', ' ', ']', ' ', 'a', '\n'], ['#', '!', '\n'],
          ['[', 'X', ']', ' ', 'b', '\n']])
        (mapNthMatch line_is_done (fun l => l.set 1 ' ') 0
          [['[', ' ', ']', ' ', 'a', '\n'], ['#', '!', '\n'],
           ['[', 'X', ']', ' ', 'b', '\n']]) ∧
      oneByteFlip (([['[', ' ', ']', ' ', 'a', '\n'], ['#', '!', '\n'],
          ['[', 'X', ']', ' ', 'b', '\n']].filter line_is_done).getD 0 []) 'X' ' ') :=
  ⟨⟨by decide, by decide, by decide⟩,
    (mutator_permutes_one_byte [['[', ' ', ']', ' ', 'a', '\n'], ['#', '!', '\n'],
      ['[', 'X', ']', ' ', 'b', '\n']] 1 0).2.2.2.2.1 (by decide) (by decide),
    (mutator_permutes_one_byte [['[', ' ', ']', ' ', 'a', '\n'], ['#', '!', '\n'],
      ['[', 'X', ']', ' ', 'b', '\n']] 1 0).2.2.2.2.2 (by decide) (by decide)⟩

/-- The fixed store-name component appended to a directory when probing
(todo.c:191): a path separator followed by the dotfile name. -/
def storeSuffix : List Char := ['/', '.', 't', 'o', 'd', 'o']

/-- Truncation step of `todo_path` (todo.c:196-199): `strrchr(cwd, '/')`
locates the last separator and the path is cut just before it; with no
separator left the loop breaks, modelled as `none`. -/
def truncAtLastSlash (cwd : List Char) : Option (List Char) :=
  if '/' ∈ cwd then some (((cwd.reverse.dropWhile (fun c => c ≠ '/')).tail).reverse)
  else none

lemma truncAtLastSlash_length {cwd c : List Char} (h : truncAtLastSlash cwd = some c) :
    c.length < cwd.length := by
  rw [truncAtLastSlash] at h
  by_cases hm : '/' ∈ cwd
  · rw [if_pos hm] at h
    injection h with h
    subst h
    have hmem : '/' ∈ cwd.reverse := List.mem_reverse.mpr hm
    have hne : cwd.reverse.dropWhile (fun c => c ≠ '/') ≠ [] := by
      intro he
      have hall := List.dropWhile_eq_nil_iff.mp he
      have := hall '/' hmem
      simp at this
    have hsub : (cwd.reverse.dropWhile (fun c => c ≠ '/')).Sublist cwd.reverse :=
      List.dropWhile_sublist _
    have h1 : (cwd.reverse.dropWhile (fun c => c ≠ '/')).length ≤ cwd.length := by
      simpa using hsub.length_le
    have h2 : 0 < (cwd.reverse.dropWhile (fun c => c ≠ '/')).length :=
      List.length_pos.mpr hne
    simp only [List.length_reverse, List.length_tail]
    omega
  · rw [if_neg hm] at h
    exact absurd h (by simp)

/-- Embeds `todo_path` (todo.c:181-203) relative to an abstract existence
test `ex` — the `stat` probe of `file_exists` (todo.c:159-163) applied to
the exact path string the source builds.  Probe the working directory's
store path; on failure cut the path at its last separator and repeat; when
no separator remains or the cut leaves an empty path, break and fall back
to the home path, modelled as `none`. -/
def todo_path (ex : List Char → Bool) (cwd : List Char) : Option (List Char) :=
  if ex (cwd ++ storeSuffix) then some (cwd ++ storeSuffix)
  else
    match htr : truncAtLastSlash cwd with
    | none => none
    | some c => if c.isEmpty then none else todo_path ex c
termination_by cwd.length
decreasing_by exact truncAtLastSlash_length htr

/-- Spec-side: the chain of directories the locator visits — the starting
directory followed by each successive ancestor obtained by cutting at the
last separator, ending before the path becomes empty or separator-free. -/
def ancestorDirs (cwd : List Char) : List (List Char) :=
  cwd ::
    (match htr : truncAtLastSlash cwd with
     | none => []
     | some c => if c.isEmpty then [] else ancestorDirs c)
termination_by cwd.length
decreasing_by exact truncAtLastSlash_length htr

lemma todo_path_as_probe_chain (ex : List Char → Bool) :
    ∀ (cwd : List Char),
      todo_path ex cwd = ((ancestorDirs cwd).map (fun d => d ++ storeSuffix)).find? ex := by
  have H : ∀ (n : Nat) (cwd : List Char), cwd.length ≤ n →
      todo_path ex cwd = ((ancestorDirs cwd).map (fun d => d ++ storeSuffix)).find? ex := by
    intro n
    induction n with
    | zero =>
      intro cwd hl
      have hz : cwd = [] := List.length_eq_zero.mp (by omega)
      subst hz
      rw [todo_path.eq_def, ancestorDirs.eq_def]
      by_cases hex : ex storeSuffix
      · simp [hex, List.find?]
      · simp [hex, List.find?]
        rfl
    | succ n ih =>
      intro cwd hl
      rw [todo_path.eq_def, ancestorDirs.eq_def]
      by_cases hex : ex (cwd ++ storeSuffix)
      · simp [hex, List.find?]
      · rcases htr : truncAtLastSlash cwd with _ | c
        · simp [hex, htr, List.find?]
        · by_cases hc : c.isEmpty
          · simp [hex, htr, hc, List.find?]
          · have hlen := truncAtLastSlash_length htr
            have hrec := ih c (by omega)
            simp [hex, htr, hc, List.find?, hrec]
  intro cwd
  exact H cwd.length cwd le_rfl

/-- Counterexample to C7: with the store present only in the root directory
(the probe path built for the root, an empty directory string followed by
the store suffix, passes the existence test) and the working directory
`/a`, the locator returns the fallback: after the failed probe of
`/a/.todo` the path is cut to the empty string and the climb breaks
without ever probing the root itself, although the root is an ancestor
holding a store. -/
theorem locator_misses_root_store :
    todo_path (fun p => p == storeSuffix) ['/', 'a'] = none ∧
    (fun p => p == storeSuffix) (([] : List Char) ++ storeSuffix) = true := by
  constructor
  · simp [todo_path.eq_def, truncAtLastSlash, storeSuffix]
  · decide

/-- C7 as amended: the locator probes the starting directory and then each
successive ancestor strictly below the filesystem root, returning the first
(nearest) probe that exists, and falls back to the home path exactly when
none of those probes succeeds — the root directory itself is never probed,
since the climb stops once cutting the last separator leaves an empty
path.  In particular, with a store only at directory `/r/a`, starting from
`/r/a/b/c` resolves the store at `/r/a`. -/
theorem locator_first_ancestor :
    (∀ (ex : List Char → Bool) (cwd : List Char),
      todo_path ex cwd = ((ancestorDirs cwd).map (fun d => d ++ storeSuffix)).find? ex) ∧
    todo_path (fun p => p == ['/', 'r', '/', 'a'] ++ storeSuffix)
        ['/', 'r', '/', 'a', '/', 'b', '/', 'c'] =
      some (['/', 'r', '/', 'a'] ++ storeSuffix) := by
  constructor
  · exact todo_path_as_probe_chain
  · simp [todo_path.eq_def, truncAtLastSlash, storeSuffix]

end Todo
